import Mathlib

/-!
Verification of the DIF3D binary-interface subsystem (armicontrib-dif3d).

This file shallowly embeds the parts of the repository relevant to the
frozen claims:

* `binaryIO/dif3dFile.py` — the `DIF3D` scalar/control file schema
  (`Dif3dStream.readWrite`, `Dif3dData`, `Convergence`);
* `binaryIO/pkedit.py` — the `PKEDIT` peak-value file schema
  (`PkeditStream.readWrite`, `PkeditData`);
* `outputReaders.py` — the region-mesh index resolver
  (`Dif3dReader._getMeshesInRegion`), flux aggregation
  (`Dif3dReader._applyFluxData`), power / peak-flux application
  (`_readPower`, `_readPeakFluxes`) and the stdout fallback extractor
  (`Dif3dStdoutReader.readRegionTotals`).

Modelling conventions:

* A binary file is a list of records; a record is a list of typed words
  (`CWord`): a fixed-width string, a 32-bit integer, or a 64-bit float.
  Integers are modelled as `Int` and floats as `Rat`; the codec only
  copies float values, so the idealization is exact for every claim here.
* The record codec itself (`cccc.IORecord.rwString/rwInt/rwDouble/
  rwDoubleMatrix`) and the ordered metadata container
  (`nuclearFileMetadata._Metadata`) live in the external ARMI framework,
  not in this repository's source tree.  They are modelled from the spec:
  each `rw*` operation is symmetric (read mode decodes the next word,
  write mode encodes the passed value), a word of the wrong kind is a
  format error, and the metadata container is an ordered key-to-value
  mapping whose lookup of an absent key yields no value.
-/

/-- One typed word of a binary record: a fixed-width character field, a
32-bit integer, or a 64-bit float (modelled as `Rat`). -/
inductive CWord where
  | str (s : String)
  | int (n : Int)
  | dbl (x : Rat)
deriving DecidableEq, Repr

/-- A record is a list of typed words; a file is a list of records. -/
abbrev CRec := List CWord

/-- Modelled from the spec: the ordered metadata container
(`nuclearFileMetadata._Metadata`) is an ordered mapping from field name to
scalar value, populated field-by-field; lookup of an absent key yields no
value. -/
abbrev MetaMap (α : Type) := List (String × α)

/-- Lookup of the first entry with the given key. -/
def MetaMap.get? {α : Type} : MetaMap α → String → Option α
  | [], _ => none
  | (k', v) :: rest, k => if k' = k then some v else MetaMap.get? rest k

/-- Python-dict style assignment: update the existing entry in place,
or append a new entry at the end (insertion order preserved). -/
def MetaMap.set {α : Type} : MetaMap α → String → α → MetaMap α
  | [], k, v => [(k, v)]
  | (k', v') :: rest, k, v =>
      if k' = k then (k', v) :: rest else (k', v') :: MetaMap.set rest k v

/-- Keys of a metadata map, in insertion order. -/
def MetaMap.keys {α : Type} (m : MetaMap α) : List String := m.map Prod.fst

theorem MetaMap.keys_cons {α : Type} {k' : String} {v' : α} {m : MetaMap α} :
    MetaMap.keys ((k', v') :: m) = k' :: MetaMap.keys m := rfl

theorem MetaMap.mem_keys_cons {α : Type} {k k' : String} {v' : α}
    {m : MetaMap α} : k ∈ MetaMap.keys ((k', v') :: m) ↔ k = k' ∨ k ∈ MetaMap.keys m := by
  rw [MetaMap.keys_cons]; exact List.mem_cons

theorem MetaMap.get_set_self {α : Type} (m : MetaMap α) (k : String) (v : α) :
    (m.set k v).get? k = some v := by
  induction m with
  | nil => simp [MetaMap.set, MetaMap.get?]
  | cons hd tl ih =>
      obtain ⟨k', v'⟩ := hd
      by_cases h : k' = k <;> simp [MetaMap.set, MetaMap.get?, h, ih]

theorem MetaMap.get_set_other {α : Type} (m : MetaMap α) (k k' : String) (v : α)
    (h : k' ≠ k) : (m.set k v).get? k' = m.get? k' := by
  have hk : k ≠ k' := fun hh => h hh.symm
  induction m with
  | nil => simp [MetaMap.set, MetaMap.get?, hk]
  | cons hd tl ih =>
      obtain ⟨k₀, v₀⟩ := hd
      by_cases h₀ : k₀ = k
      · subst h₀
        simp [MetaMap.set, MetaMap.get?, hk]
      · simp only [MetaMap.set, if_neg h₀]
        by_cases h₁ : k₀ = k' <;> simp [MetaMap.get?, h₁, ih]

/-- Setting a key to the value it already holds leaves the map unchanged. -/
theorem MetaMap.set_get_self {α : Type} (m : MetaMap α) (k : String) (v : α)
    (h : m.get? k = some v) : m.set k v = m := by
  induction m with
  | nil => simp [MetaMap.get?] at h
  | cons hd tl ih =>
      obtain ⟨k', v'⟩ := hd
      by_cases h' : k' = k
      · subst h'
        simp [MetaMap.get?] at h
        simp [MetaMap.set, h]
      · simp [MetaMap.get?, h'] at h
        simp [MetaMap.set, h', ih h]

theorem MetaMap.get_mem_keys {α : Type} (m : MetaMap α) (k : String)
    (h : k ∈ MetaMap.keys m) : ∃ v, m.get? k = some v := by
  induction m with
  | nil => simp [MetaMap.keys] at h
  | cons hd tl ih =>
      obtain ⟨k', v'⟩ := hd
      by_cases h' : k' = k
      · exact ⟨v', by simp [MetaMap.get?, h']⟩
      · have h₂ : k ∈ MetaMap.keys tl := by
          rcases MetaMap.mem_keys_cons.mp h with h₁ | h₁
          · exact absurd h₁.symm h'
          · exact h₁
        obtain ⟨v, hv⟩ := ih h₂
        exact ⟨v, by simp [MetaMap.get?, h', hv]⟩

theorem MetaMap.get_append_left {α : Type} (m₁ m₂ : MetaMap α) (k : String)
    (h : k ∈ MetaMap.keys m₁) : MetaMap.get? (m₁ ++ m₂) k = m₁.get? k := by
  induction m₁ with
  | nil => simp [MetaMap.keys] at h
  | cons hd tl ih =>
      obtain ⟨k', v'⟩ := hd
      by_cases h' : k' = k
      · simp [MetaMap.get?, h']
      · have h₂ : k ∈ MetaMap.keys tl := by
          rcases MetaMap.mem_keys_cons.mp h with h₁ | h₁
          · exact absurd h₁.symm h'
          · exact h₁
        simp [MetaMap.get?, h', ih h₂]

theorem MetaMap.get_append_right {α : Type} (m₁ m₂ : MetaMap α) (k : String)
    (h : k ∉ MetaMap.keys m₁) : MetaMap.get? (m₁ ++ m₂) k = m₂.get? k := by
  induction m₁ with
  | nil => simp
  | cons hd tl ih =>
      obtain ⟨k', v'⟩ := hd
      have h₁ : ¬(k = k' ∨ k ∈ MetaMap.keys tl) := fun hh => h (MetaMap.mem_keys_cons.mpr hh)
      push_neg at h₁
      have hk : k' ≠ k := fun hh => h₁.1 hh.symm
      simp [MetaMap.get?, hk, ih h₁.2]

/-- First occurrences of `keys` that are not already in `seen`, in order.
A metadata map populated by running a schema's key sequence through
repeated assignment has exactly these keys, in this order. -/
def newKeys (seen : List String) : List String → List String
  | [] => []
  | k :: ks => if k ∈ seen then newKeys seen ks else k :: newKeys (k :: seen) ks

theorem newKeys_congr (s₁ s₂ : List String) (ks : List String)
    (h : ∀ x, x ∈ s₁ ↔ x ∈ s₂) : newKeys s₁ ks = newKeys s₂ ks := by
  induction ks generalizing s₁ s₂ with
  | nil => rfl
  | cons k ks ih =>
      by_cases hk : k ∈ s₁
      · simp [newKeys, hk, (h k).mp hk, ih _ _ h]
      · have hk₂ : k ∉ s₂ := fun hh => hk ((h k).mpr hh)
        simp only [newKeys, if_neg hk, if_neg hk₂]
        refine congrArg _ (ih _ _ fun x => ?_)
        simp [h x]

theorem mem_newKeys_of_mem (seen ks : List String) (k : String)
    (h : k ∈ ks) (hs : k ∉ seen) : k ∈ newKeys seen ks := by
  induction ks generalizing seen with
  | nil => simp at h
  | cons k' ks ih =>
      by_cases hk' : k' ∈ seen
      · simp only [newKeys, if_pos hk']
        rcases List.mem_cons.mp h with h | h
        · exact absurd (h ▸ hk') hs
        · exact ih seen h hs
      · simp only [newKeys, if_neg hk']
        rcases List.mem_cons.mp h with h | h
        · exact h ▸ List.mem_cons_self _ _
        · by_cases hkk : k = k'
          · exact hkk ▸ List.mem_cons_self _ _
          · exact List.mem_cons_of_mem _ (ih (k' :: seen) h (by simp [hkk, hs]))

theorem MetaMap.set_not_mem {α : Type} (m : MetaMap α) (k : String) (v : α)
    (h : k ∉ MetaMap.keys m) : m.set k v = m ++ [(k, v)] := by
  induction m with
  | nil => rfl
  | cons hd tl ih =>
      obtain ⟨k', v'⟩ := hd
      have h₁ : ¬(k = k' ∨ k ∈ MetaMap.keys tl) := fun hh => h (MetaMap.mem_keys_cons.mpr hh)
      push_neg at h₁
      have hk : k' ≠ k := fun hh => h₁.1 hh.symm
      simp [MetaMap.set, hk, ih h₁.2]

/-- Modelled from the spec: one scalar-metadata record in write mode.  The
schema replays its key sequence; for each key the current value is looked
up in the container and encoded as the next word (`value = record.rwInt(
container[key])` with `rwInt` returning its argument unchanged in write
mode).  A key that was never populated has no value, which is a write
error. -/
def writeRec {α : Type} (enc : α → CWord) (m : MetaMap α) : List String → Option CRec
  | [] => some []
  | k :: ks =>
      match m.get? k, writeRec enc m ks with
      | some v, some r => some (enc v :: r)
      | _, _ => none

/-- Modelled from the spec: one scalar-metadata record in read mode.  The
schema replays its key sequence; each key decodes the next word of the
record and assigns it into the container; a word of the wrong kind is a
format error, as is a record whose length does not match the schema. -/
def readRec {α : Type} (dec : CWord → Option α) :
    MetaMap α → List String → CRec → Option (MetaMap α)
  | m, [], [] => some m
  | m, k :: ks, c :: rest =>
      match dec c with
      | some v => readRec dec (m.set k v) ks rest
      | none => none
  | _, _, _ => none

/-- The container state produced by replaying `keys` against source map
`m`: each key is assigned the value `m` holds for it (keys absent from
`m` are never produced by a successful write and are skipped here). -/
def foldSet {α : Type} (m : MetaMap α) : List String → MetaMap α → MetaMap α
  | [], acc => acc
  | k :: ks, acc =>
      foldSet m ks (match m.get? k with
        | some v => acc.set k v
        | none => acc)

theorem writeRec_total {α : Type} (enc : α → CWord) (m : MetaMap α)
    (keys : List String) (h : ∀ k ∈ keys, k ∈ MetaMap.keys m) :
    ∃ r, writeRec enc m keys = some r := by
  induction keys with
  | nil => exact ⟨[], rfl⟩
  | cons k ks ih =>
      obtain ⟨v, hv⟩ := MetaMap.get_mem_keys m k (h k (List.mem_cons_self _ _))
      obtain ⟨r, hr⟩ := ih fun k' hk' => h k' (List.mem_cons_of_mem _ hk')
      exact ⟨enc v :: r, by simp [writeRec, hv, hr]⟩

/-- Reading back a record written from container `m` replays every
assignment with `m`'s own values. -/
theorem readRec_writeRec {α : Type} (dec : CWord → Option α) (enc : α → CWord)
    (hde : ∀ a, dec (enc a) = some a) (m : MetaMap α) (keys : List String) :
    ∀ (acc : MetaMap α) (r : CRec), writeRec enc m keys = some r →
      readRec dec acc keys r = some (foldSet m keys acc) := by
  induction keys with
  | nil =>
      intro acc r hw
      obtain rfl : r = [] := by simpa [writeRec] using hw.symm
      rfl
  | cons k ks ih =>
      intro acc r hw
      rcases hv : m.get? k with _ | v
      · rw [writeRec, hv] at hw; exact absurd hw (by simp)
      · rcases hr : writeRec enc m ks with _ | r'
        · rw [writeRec, hv, hr] at hw; exact absurd hw (by simp)
        · rw [writeRec, hv, hr] at hw
          obtain rfl : r = enc v :: r' := by simpa using hw.symm
          simp only [readRec, hde v]
          rw [ih _ r' hr]
          simp [foldSet, hv]

/-- Replaying a key sequence against a container whose key list is exactly
the sequence's first-occurrence list rebuilds the container unchanged:
a repeated key re-assigns the value already held, which is a no-op. -/
theorem foldSet_eq_self {α : Type} (keys : List String) :
    ∀ acc rest : MetaMap α,
      newKeys (MetaMap.keys acc) keys = MetaMap.keys rest →
      foldSet (acc ++ rest) keys acc = acc ++ rest := by
  induction keys with
  | nil =>
      intro acc rest hnew
      obtain rfl : rest = [] := by
        cases rest with
        | nil => rfl
        | cons hd tl => exact absurd hnew.symm (by simp [newKeys, MetaMap.keys])
      simp [foldSet]
  | cons k ks ih =>
      intro acc rest hnew
      by_cases hk : k ∈ MetaMap.keys acc
      · obtain ⟨v, hv⟩ := MetaMap.get_mem_keys acc k hk
        have hm : MetaMap.get? (acc ++ rest) k = some v :=
          (MetaMap.get_append_left acc rest k hk).trans hv
        have hset : MetaMap.set acc k v = acc := MetaMap.set_get_self acc k v hv
        rw [newKeys, if_pos hk] at hnew
        simpa [foldSet, hm, hset] using ih acc rest hnew
      · rw [newKeys, if_neg hk] at hnew
        cases rest with
        | nil => exact absurd hnew (by simp [MetaMap.keys])
        | cons hd rest' =>
            obtain ⟨k₀, v₀⟩ := hd
            rw [MetaMap.keys_cons] at hnew
            obtain ⟨rfl, hnew'⟩ : k = k₀ ∧ newKeys (k :: MetaMap.keys acc) ks = MetaMap.keys rest' := by
              constructor
              · exact (List.cons.injEq _ _ _ _ ▸ hnew).1
              · exact (List.cons.injEq _ _ _ _ ▸ hnew).2
            have hm : MetaMap.get? (acc ++ (k, v₀) :: rest') k = some v₀ := by
              rw [MetaMap.get_append_right acc _ k hk]
              simp [MetaMap.get?]
            have hset : MetaMap.set acc k v₀ = acc ++ [(k, v₀)] :=
              MetaMap.set_not_mem acc k v₀ hk
            have hkeys : MetaMap.keys (acc ++ [(k, v₀)]) = MetaMap.keys acc ++ [k] := by
              simp [MetaMap.keys]
            have hnew₂ : newKeys (MetaMap.keys (acc ++ [(k, v₀)])) ks = MetaMap.keys rest' := by
              rw [hkeys]
              rw [newKeys_congr (MetaMap.keys acc ++ [k]) (k :: MetaMap.keys acc) ks
                (fun x => by simp [or_comm])]
              exact hnew'
            have happ : acc ++ (k, v₀) :: rest' = (acc ++ [(k, v₀)]) ++ rest' := by
              simp
            simp only [foldSet, hm]
            rw [hset, happ]
            exact ih (acc ++ [(k, v₀)]) rest' hnew₂

/-- Full round-trip at the record level: a container whose keys are the
first occurrences of the schema's key sequence writes successfully and
reads back identically. -/
theorem record_roundTrip {α : Type} (dec : CWord → Option α) (enc : α → CWord)
    (hde : ∀ a, dec (enc a) = some a) (m : MetaMap α) (keys : List String)
    (hkeys : MetaMap.keys m = newKeys [] keys) :
    ∃ r, writeRec enc m keys = some r ∧ readRec dec [] keys r = some m := by
  have htotal : ∀ k ∈ keys, k ∈ MetaMap.keys m := by
    intro k hk
    rw [hkeys]
    exact mem_newKeys_of_mem [] keys k hk (by simp)
  obtain ⟨r, hr⟩ := writeRec_total enc m keys htotal
  refine ⟨r, hr, ?_⟩
  rw [readRec_writeRec dec enc hde m keys [] r hr]
  have : foldSet ([] ++ m) keys [] = [] ++ m :=
    foldSet_eq_self keys [] m (by simpa [MetaMap.keys] using hkeys.symm)
  simpa using this

/-- Decoder/encoder pair for 32-bit integer words. -/
def decInt : CWord → Option Int
  | .int n => some n
  | _ => none

/-- Decoder/encoder pair for 64-bit float words. -/
def decDbl : CWord → Option Rat
  | .dbl x => some x
  | _ => none

/-! ## The `DIF3D` scalar/control file (`binaryIO/dif3dFile.py`) -/

/-- The 2D-record integer control keys of the `DIF3D` file, in schema
order (`INT_CONTROL_2D_KEYS`; note `IOMEG` appears twice, as in the
source tuple). -/
def INT_CONTROL_2D_KEYS : List String :=
  ["IPROBT", "ISOLNT", "IXTRAP", "MINBSZ", "NOUTMX", "IRSTRT", "LIMTIM",
   "NUPMAX", "IOSAVE", "IOMEG", "INRMAX", "NUMORP", "IRETRN", "IEDF1",
   "IEDF2", "IEDF3", "IEDF4", "IEDF5", "IEDF6", "IEDF7", "IEDF8", "IEDF9",
   "IEDF10", "NOUTBQ", "IOFLUX", "NOEDIT", "NOD3ED", "ISRHED", "NSN",
   "NSWMAX", "NAPRX", "NAPRXZ", "NFMCMX", "NXYSWP", "NZSWP", "ISYMF",
   "NCMRZS", "ISEXTR", "NPNO", "NXTR", "IOMEG", "IFULL", "NVFLAG",
   "ISIMPL", "IWNHFL", "IPERT", "IHARM"]

/-- The 3D-record float keys of the `DIF3D` file (`KEYS_3D_RECORD`): ten
named keys followed by twenty copies of `"DUM"`. -/
def KEYS_3D_RECORD : List String :=
  ["EPS1", "EPS2", "EPS3", "EFFK", "FISMIN", "PSINRM", "POWIN", "SIGBAR",
   "EFFKQ", "EPSWP"] ++ List.replicate 20 "DUM"

/-- Convergence flags for DIF3D outers (`dif3dFile.Convergence`). -/
inductive Convergence where
  | NO_ITERATIONS
  | CONVERGED
  | OUTERS_LIMIT_REACHED
  | TIME_LIMIT_REACHED
deriving DecidableEq, Repr

/-- `Convergence(n)`: Python `Enum` lookup by value; a value outside
0..3 raises `ValueError` (modelled as `none`). -/
def Convergence.ofInt? (n : Int) : Option Convergence :=
  if n = 0 then some .NO_ITERATIONS
  else if n = 1 then some .CONVERGED
  else if n = 2 then some .OUTERS_LIMIT_REACHED
  else if n = 3 then some .TIME_LIMIT_REACHED
  else none

/-- `Dif3dData`: label from the file-ID record plus the two metadata
containers `intControls` (2D record) and `keffData` (3D record). -/
structure Dif3dData where
  label : String
  intControls : MetaMap Int
  keffData : MetaMap Rat
deriving DecidableEq, Repr

/-- `Dif3dData.convergence`: `Convergence(self.intControls["IRETRN"])`;
a missing key or an out-of-range value raises (modelled as `none`). -/
def Dif3dData.convergence (d : Dif3dData) : Option Convergence :=
  (MetaMap.get? d.intControls "IRETRN").bind Convergence.ofInt?

/-- Modelled from the spec: `rwString(value, width)` in write mode pads a
short string with blanks and truncates a long one to the declared
width. -/
def padTruncate (s : String) (w : Nat) : String :=
  String.mk (s.toList.take w ++ List.replicate (w - s.toList.length) ' ')

/-- Read the 28-character file-identification field (`_rwFileID`); the
record must hold exactly the declared width of characters. -/
def readStr28 (r : CRec) : Option String :=
  match r with
  | [.str s] => if s.length = 28 then some s else none
  | _ => none

/-- `_rw1DRecord` in write mode: 25 integer words, all zero, regardless
of the container. -/
def write1D : CRec := List.replicate 25 (CWord.int 0)

/-- `_rw1DRecord` in read mode: consume `n` integer words and discard
them. -/
def readIntsN : Nat → CRec → Option Unit
  | 0, [] => some ()
  | n + 1, CWord.int _ :: rest => readIntsN n rest
  | _, _ => none

/-- `Dif3dStream.readWrite` in write mode: file-ID record, the 1D record
(emitted as 25 zeros), the 2D integer-control record and the 3D float
record. -/
def dif3dWrite (d : Dif3dData) : Option (List CRec) :=
  match writeRec CWord.int d.intControls INT_CONTROL_2D_KEYS,
        writeRec CWord.dbl d.keffData KEYS_3D_RECORD with
  | some r2, some r3 =>
      some [[CWord.str (padTruncate d.label 28)], write1D, r2, r3]
  | _, _ => none

/-- `Dif3dStream.readWrite` in read mode: the same step sequence replayed
against an empty container; the 1D record's 25 integers are read and
discarded. -/
def dif3dRead (f : List CRec) : Option Dif3dData :=
  match f with
  | r0 :: r1 :: r2 :: r3 :: _ =>
      match readStr28 r0, readIntsN 25 r1,
            readRec decInt [] INT_CONTROL_2D_KEYS r2,
            readRec decDbl [] KEYS_3D_RECORD r3 with
      | some lbl, some _, some ic, some kd => some ⟨lbl, ic, kd⟩
      | _, _, _, _ => none
  | _ => none

/-- A valid `DIF3D` container: the label fills its fixed-width field and
the two metadata containers hold exactly the schema's fields in schema
order (what any read, or any faithful host construction, produces). -/
def Dif3dData.valid (d : Dif3dData) : Prop :=
  d.label.length = 28 ∧
  MetaMap.keys d.intControls = newKeys [] INT_CONTROL_2D_KEYS ∧
  MetaMap.keys d.keffData = newKeys [] KEYS_3D_RECORD

theorem padTruncate_of_length (s : String) (h : s.length = 28) :
    padTruncate s 28 = s := by
  have hd : s.toList.length = 28 := h
  rw [padTruncate, List.take_of_length_le (le_of_eq hd), hd]
  simp

/-! ## The banded matrix partitioner

`pkedit.py` splits the J axis of its 3-D record across `NJBLOK` banded
records with `cccc.getBlockBandwidth(bi + 1, jmax, nblck)`.  That function
lives in the external ARMI framework, not in this repository's source
tree, so it is modelled from the spec: divide the axis extent as evenly
as possible across the block count, assigning any remainder to the
earlier bands; indices are 0-based. -/

/-- Modelled from the spec: 0-based lower index of the `m`-th band
(`m` is 1-based). The first `extent % count` bands each take one extra
index. -/
def bandLow (m extent count : Nat) : Nat :=
  (m - 1) * (extent / count) + min (m - 1) (extent % count)

/-- Modelled from the spec: number of indices owned by the `m`-th band
(`m` is 1-based). -/
def bandSize (m extent count : Nat) : Nat :=
  extent / count + if m ≤ extent % count then 1 else 0

/-- The index range of the `m`-th band, in order. -/
def bandJs (m extent count : Nat) : List Nat :=
  List.range' (bandLow m extent count) (bandSize m extent count)

/-- All `count` bands of an axis of the given extent, in order. -/
def bandList (extent count : Nat) : List (List Nat) :=
  (List.range count).map fun b => bandJs (b + 1) extent count

theorem bandLow_one (extent count : Nat) : bandLow 1 extent count = 0 := by
  simp [bandLow]

theorem bandLow_succ (m extent count : Nat) (hm : 1 ≤ m) :
    bandLow (m + 1) extent count =
      bandLow m extent count + bandSize m extent count := by
  obtain ⟨m', rfl⟩ : ∃ m', m = m' + 1 := ⟨m - 1, by omega⟩
  rw [bandLow, bandLow, bandSize]
  simp only [Nat.add_sub_cancel]
  rcases le_or_lt (m' + 1) (extent % count) with h | h
  · rw [Nat.min_eq_left h, Nat.min_eq_left (by omega : m' ≤ extent % count),
      if_pos h, Nat.succ_mul]
    ring
  · rw [Nat.min_eq_right (by omega : extent % count ≤ m' + 1),
      Nat.min_eq_right (by omega : extent % count ≤ m'), if_neg (by omega),
      Nat.succ_mul]
    ring

theorem bandList_take_flatten (extent count : Nat) :
    ∀ j, ((List.range j).map fun b => bandJs (b + 1) extent count).flatten =
      List.range' 0 (bandLow (j + 1) extent count) := by
  intro j
  induction j with
  | zero => simp [bandLow]
  | succ j ih =>
      rw [List.range_succ, List.map_append, List.flatten_append, ih]
      simp only [List.map_cons, List.map_nil, List.flatten_cons,
        List.flatten_nil, List.append_nil, bandJs]
      rw [bandLow_succ (j + 1) extent count (by omega)]
      have := List.range'_append 0 (bandLow (j + 1) extent count)
        (bandSize (j + 1) extent count) 1
      simpa [Nat.add_comm] using this

/-- The concatenation of all bands, in band order, is exactly the axis
`0, 1, ..., extent - 1`. -/
theorem bandList_flatten (extent count : Nat) (hc : 1 ≤ count) :
    (bandList extent count).flatten = List.range extent := by
  rw [bandList, bandList_take_flatten extent count count]
  have hmod : extent % count < count := Nat.mod_lt _ (by omega)
  have : bandLow (count + 1) extent count = extent := by
    rw [bandLow]
    simp only [Nat.add_sub_cancel]
    rw [Nat.min_eq_right (by omega : extent % count ≤ count)]
    exact Nat.div_add_mod extent count
  rw [this, List.range_eq_range']

theorem bandJs_length (m extent count : Nat) :
    (bandJs m extent count).length = bandSize m extent count := by
  simp [bandJs]

theorem bandSize_monotone (m₁ m₂ extent count : Nat) (h : m₁ ≤ m₂) :
    bandSize m₂ extent count ≤ bandSize m₁ extent count ∧
      bandSize m₁ extent count ≤ bandSize m₂ extent count + 1 := by
  rw [bandSize, bandSize]
  split_ifs with h₁ h₂ h₂ <;> omega

theorem bandList_single (extent : Nat) : bandList extent 1 = [List.range extent] := by
  have hsz : bandSize 1 extent 1 = extent := by
    rw [bandSize, Nat.div_one, Nat.mod_one, if_neg (by omega)]
    omega
  simp [bandList, bandJs, bandLow_one, hsz, List.range_eq_range']

/-! ## 3-D double arrays (`peakPowerDensity`)

`np.zeros((IM, JM, KM))` and the banded slice assignment
`peakPowerDensity[:, jL:jU+1, ki] = record.rwDoubleMatrix(...)` are
modelled by nested lists indexed `[i][j][k]` with per-cell updates in the
record's serialization order (the Fortran writer's order: for each banded
record, `j` runs over the band and `i` runs fastest). -/

abbrev PArr := List (List (List Rat))

/-- Replace the `n`-th element by `f` of itself; out-of-range indices
leave the list unchanged. -/
def listModify {α : Type} (f : α → α) : Nat → List α → List α
  | _, [] => []
  | 0, x :: xs => f x :: xs
  | n + 1, x :: xs => x :: listModify f n xs

theorem listModify_length {α : Type} (f : α → α) (n : Nat) (l : List α) :
    (listModify f n l).length = l.length := by
  induction l generalizing n with
  | nil => cases n <;> rfl
  | cons x xs ih => cases n <;> simp [listModify, ih]

theorem getD_listModify {α : Type} (f : α → α) (n m : Nat) (d : α)
    (l : List α) : (listModify f n l).getD m d =
      if m = n ∧ n < l.length then f (l.getD m d) else l.getD m d := by
  induction l generalizing n m with
  | nil => simp [listModify]
  | cons x xs ih =>
      cases n with
      | zero =>
          cases m with
          | zero => simp [listModify]
          | succ m => simp [listModify]
      | succ n =>
          cases m with
          | zero => simp [listModify]
          | succ m =>
              simp only [listModify, List.getD_cons_succ, ih, List.length_cons]
              by_cases h : m = n ∧ n < xs.length
              · rw [if_pos h, if_pos ⟨by omega, by omega⟩]
              · rw [if_neg h, if_neg (by omega)]

/-- Element access `A[i, j, k]`, with a default of `0` outside the array. -/
def get3 (A : PArr) (i j k : Nat) : Rat := ((A.getD i []).getD j []).getD k 0

/-- Cell update `A[i, j, k] = v`; out-of-range indices are a no-op (the
reader only writes inside the allocated shape). -/
def set3 (A : PArr) (i j k : Nat) (v : Rat) : PArr :=
  listModify (fun p => listModify (fun r => listModify (fun _ => v) k r) j p) i A

/-- `np.zeros((im, jm, km))`. -/
def zeros3 (im jm km : Nat) : PArr :=
  List.replicate im (List.replicate jm (List.replicate km (0 : Rat)))

/-- Rectangular well-formedness at shape `(im, jm, km)`. -/
abbrev wf3 (A : PArr) (im jm km : Nat) : Prop :=
  A.length = im ∧ ∀ p ∈ A, p.length = jm ∧ ∀ r ∈ p, r.length = km

/-- Total element count (`ndarray.size`). -/
def size3 (A : PArr) : Nat := (A.map fun p => (p.map List.length).sum).sum

theorem mem_getD {α : Type} (l : List α) (n : Nat) (d : α)
    (h : n < l.length) : l.getD n d ∈ l := by
  induction l generalizing n with
  | nil => simp at h
  | cons x xs ih =>
      cases n with
      | zero => simp
      | succ n => simpa using Or.inr (ih n (by simpa using h))

theorem wf3_plane_len {A : PArr} {im jm km : Nat} (h : wf3 A im jm km)
    {i : Nat} (hi : i < im) : (A.getD i []).length = jm :=
  (h.2 _ (mem_getD A i [] (h.1 ▸ hi))).1

theorem wf3_row_len {A : PArr} {im jm km : Nat} (h : wf3 A im jm km)
    {i j : Nat} (hi : i < im) (hj : j < jm) :
    ((A.getD i []).getD j []).length = km := by
  have hp := h.2 _ (mem_getD A i [] (h.1 ▸ hi))
  exact (hp.2 _ (mem_getD _ j [] (hp.1 ▸ hj)))

theorem get3_set3 (S : PArr) (i j k : Nat) (v : Rat) (i' j' k' : Nat) :
    get3 (set3 S i j k v) i' j' k' =
      if i' = i ∧ j' = j ∧ k' = k ∧ i < S.length ∧
          j < (S.getD i []).length ∧ k < ((S.getD i []).getD j []).length
      then v else get3 S i' j' k' := by
  rw [get3, set3, getD_listModify]
  by_cases hi : i' = i ∧ i < S.length
  · obtain ⟨rfl, hlen⟩ := hi
    rw [if_pos ⟨rfl, hlen⟩, getD_listModify]
    by_cases hj : j' = j ∧ j < (S.getD i' []).length
    · obtain ⟨rfl, hjlen⟩ := hj
      rw [if_pos ⟨rfl, hjlen⟩, getD_listModify]
      by_cases hk : k' = k ∧ k < ((S.getD i' []).getD j' []).length
      · obtain ⟨rfl, hklen⟩ := hk
        rw [if_pos ⟨rfl, hklen⟩, if_pos ⟨rfl, rfl, rfl, hlen, hjlen, hklen⟩]
      · rw [if_neg hk, if_neg (by tauto), get3]
    · rw [if_neg hj, if_neg (by tauto), get3]
  · rw [if_neg hi, if_neg (by tauto), get3]

theorem mem_listModify {α : Type} (f : α → α) (n : Nat) (l : List α) (x : α)
    (h : x ∈ listModify f n l) : x ∈ l ∨ ∃ y ∈ l, x = f y := by
  induction l generalizing n with
  | nil => cases n <;> simp [listModify] at h
  | cons a as ih =>
      cases n with
      | zero =>
          rcases List.mem_cons.mp h with h | h
          · exact Or.inr ⟨a, List.mem_cons_self _ _, h⟩
          · exact Or.inl (List.mem_cons_of_mem _ h)
      | succ n =>
          rcases List.mem_cons.mp h with h | h
          · exact Or.inl (h ▸ List.mem_cons_self _ _)
          · rcases ih n h with h' | ⟨y, hy, hy'⟩
            · exact Or.inl (List.mem_cons_of_mem _ h')
            · exact Or.inr ⟨y, List.mem_cons_of_mem _ hy, hy'⟩

theorem wf3_set3 {S : PArr} {im jm km : Nat} (h : wf3 S im jm km)
    (i j k : Nat) (v : Rat) : wf3 (set3 S i j k v) im jm km := by
  obtain ⟨hlen, hmem⟩ := h
  refine ⟨by rw [set3, listModify_length, hlen], ?_⟩
  intro p hp
  rcases mem_listModify _ _ _ _ hp with hp' | ⟨q, hq, rfl⟩
  · exact hmem p hp'
  · obtain ⟨hqlen, hqmem⟩ := hmem q hq
    refine ⟨by rw [listModify_length, hqlen], ?_⟩
    intro r hr
    rcases mem_listModify _ _ _ _ hr with hr' | ⟨s, hs, rfl⟩
    · exact hqmem r hr'
    · rw [listModify_length]
      exact hqmem s hs

theorem wf3_zeros3 (im jm km : Nat) : wf3 (zeros3 im jm km) im jm km := by
  refine ⟨by simp [zeros3], ?_⟩
  intro p hp
  rw [List.eq_of_mem_replicate hp]
  refine ⟨by simp, ?_⟩
  intro r hr
  rw [List.eq_of_mem_replicate hr]
  simp

theorem getD_replicate' {α : Type} (a d : α) (n m : Nat) :
    (List.replicate n a).getD m d = if m < n then a else d := by
  induction n generalizing m with
  | zero => simp
  | succ n ih =>
      cases m with
      | zero => simp [List.replicate]
      | succ m =>
          rw [List.replicate_succ, List.getD_cons_succ, ih]
          simp [Nat.succ_lt_succ_iff]

theorem get3_zeros3 (im jm km i j k : Nat) : get3 (zeros3 im jm km) i j k = 0 := by
  rw [get3, zeros3, getD_replicate']
  by_cases hi : i < im
  · rw [if_pos hi, getD_replicate']
    by_cases hj : j < jm
    · rw [if_pos hj, getD_replicate']
      by_cases hk : k < km
      · rw [if_pos hk]
      · rw [if_neg hk]
    · rw [if_neg hj]
      simp
  · rw [if_neg hi]
    simp

theorem listExtGetD {α : Type} (d : α) (l₁ l₂ : List α)
    (hlen : l₁.length = l₂.length)
    (h : ∀ n, n < l₁.length → l₁.getD n d = l₂.getD n d) : l₁ = l₂ := by
  induction l₁ generalizing l₂ with
  | nil =>
      cases l₂ with
      | nil => rfl
      | cons y ys => simp at hlen
  | cons x xs ih =>
      cases l₂ with
      | nil => simp at hlen
      | cons y ys =>
          have hx : x = y := by simpa using h 0 (by simp)
          have hxs : xs = ys := by
            refine ih ys (by simpa using hlen) fun n hn => ?_
            simpa using h (n + 1) (by simpa using hn)
          rw [hx, hxs]

/-- Two rectangular arrays of the same shape with equal cells are equal. -/
theorem wf3_ext {A B : PArr} {im jm km : Nat} (hA : wf3 A im jm km)
    (hB : wf3 B im jm km)
    (h : ∀ i < im, ∀ j < jm, ∀ k < km, get3 A i j k = get3 B i j k) : A = B := by
  refine listExtGetD [] A B (by rw [hA.1, hB.1]) ?_
  intro i hi
  have hi' : i < im := hA.1 ▸ hi
  refine listExtGetD [] _ _
    (by rw [wf3_plane_len hA hi', wf3_plane_len hB hi']) ?_
  intro j hj
  have hj' : j < jm := (wf3_plane_len hA hi') ▸ hj
  refine listExtGetD 0 _ _
    (by rw [wf3_row_len hA hi' hj', wf3_row_len hB hi' hj']) ?_
  intro k hk
  have hk' : k < km := (wf3_row_len hA hi' hj') ▸ hk
  exact h i hi' j hj' k hk'

/-- A mesh cell index `(i, j, k)`. -/
abbrev Cell := Nat × Nat × Nat

/-- Cell within shape bounds. -/
def inB (im jm km : Nat) (c : Cell) : Prop :=
  c.1 < im ∧ c.2.1 < jm ∧ c.2.2 < km

/-- One banded record in write mode: the listed cells of `A`, serialized
in order as doubles. -/
def writeCells (A : PArr) (cells : List Cell) : CRec :=
  cells.map fun c => CWord.dbl (get3 A c.1 c.2.1 c.2.2)

/-- One banded record in read mode: each listed cell receives the next
double of the record; a word of the wrong kind or a length mismatch is a
format error. -/
def readCells : PArr → List Cell → CRec → Option PArr
  | S, [], [] => some S
  | S, c :: cs, CWord.dbl v :: rest =>
      readCells (set3 S c.1 c.2.1 c.2.2 v) cs rest
  | _, _, _ => none

/-- The state after assigning each listed cell of `S` the corresponding
cell value of `A`. -/
def applyCells (A S : PArr) (cells : List Cell) : PArr :=
  cells.foldl (fun s c => set3 s c.1 c.2.1 c.2.2 (get3 A c.1 c.2.1 c.2.2)) S

theorem readCells_writeCells (A : PArr) (cells : List Cell) :
    ∀ S, readCells S cells (writeCells A cells) = some (applyCells A S cells) := by
  induction cells with
  | nil => intro S; rfl
  | cons c cs ih =>
      intro S
      simp only [writeCells, List.map_cons, readCells, applyCells,
        List.foldl_cons] at *
      exact ih _

theorem wf3_applyCells {im jm km : Nat} (A : PArr) (cells : List Cell) :
    ∀ S, wf3 S im jm km → wf3 (applyCells A S cells) im jm km := by
  induction cells with
  | nil => intro S hS; exact hS
  | cons c cs ih =>
      intro S hS
      simp only [applyCells, List.foldl_cons]
      exact ih _ (wf3_set3 hS _ _ _ _)

theorem get3_applyCells {im jm km : Nat} (A : PArr) (cells : List Cell) :
    ∀ S, wf3 S im jm km → (∀ c ∈ cells, inB im jm km c) →
      ∀ x : Cell, inB im jm km x →
        get3 (applyCells A S cells) x.1 x.2.1 x.2.2 =
          if x ∈ cells then get3 A x.1 x.2.1 x.2.2
          else get3 S x.1 x.2.1 x.2.2 := by
  induction cells with
  | nil =>
      intro S _ _ x _
      simp [applyCells]
  | cons c cs ih =>
      intro S hS hc x hx
      have hcb := hc c (List.mem_cons_self _ _)
      simp only [applyCells, List.foldl_cons]
      have hrec := ih (set3 S c.1 c.2.1 c.2.2 (get3 A c.1 c.2.1 c.2.2))
        (wf3_set3 hS _ _ _ _) (fun c' hc' => hc c' (List.mem_cons_of_mem _ hc'))
        x hx
      simp only [applyCells] at hrec
      rw [hrec]
      by_cases hmem : x ∈ cs
      · rw [if_pos hmem, if_pos (List.mem_cons_of_mem _ hmem)]
      · rw [if_neg hmem, get3_set3]
        by_cases hxc : x = c
        · subst hxc
          rw [if_pos ⟨rfl, rfl, rfl, hS.1.symm ▸ hcb.1,
              (wf3_plane_len hS hcb.1).symm ▸ hcb.2.1,
              (wf3_row_len hS hcb.1 hcb.2.1).symm ▸ hcb.2.2⟩,
            if_pos (List.mem_cons_self _ _)]
        · have hne : ¬(x.1 = c.1 ∧ x.2.1 = c.2.1 ∧ x.2.2 = c.2.2 ∧
              c.1 < S.length ∧ c.2.1 < (S.getD c.1 []).length ∧
              c.2.2 < ((S.getD c.1 []).getD c.2.1 []).length) := by
            rintro ⟨h1, h2, h3, -⟩
            exact hxc (Prod.ext_iff.mpr ⟨h1, Prod.ext_iff.mpr ⟨h2, h3⟩⟩)
          rw [if_neg hne, if_neg (by
            intro hh
            rcases List.mem_cons.mp hh with hh | hh
            · exact hxc hh
            · exact hmem hh)]

/-- All cells assigned by a record sequence receiving only nonnegative
doubles stay nonnegative if they start nonnegative. -/
theorem get3_readCells_nonneg (cells : List Cell) :
    ∀ S r S', readCells S cells r = some S' →
      (∀ w ∈ r, ∀ x : Rat, w = CWord.dbl x → 0 ≤ x) →
      (∀ i j k, 0 ≤ get3 S i j k) →
      ∀ i j k, 0 ≤ get3 S' i j k := by
  induction cells with
  | nil =>
      intro S r S' hread hr hS i j k
      cases r with
      | nil => cases hread; exact hS i j k
      | cons w ws => exact absurd hread (by simp [readCells])
  | cons c cs ih =>
      intro S r S' hread hr hS i j k
      cases r with
      | nil => exact absurd hread (by simp [readCells])
      | cons w ws =>
          cases w with
          | str s => exact absurd hread (by simp [readCells])
          | int n => exact absurd hread (by simp [readCells])
          | dbl v =>
              refine ih _ ws S' hread (fun w hw => hr w (List.mem_cons_of_mem _ hw)) ?_ i j k
              intro i' j' k'
              rw [get3_set3]
              split_ifs with hcond
              · exact hr (CWord.dbl v) (List.mem_cons_self _ _) v rfl
              · exact hS i' j' k'

/-! ## The `PKEDIT` peak-value file (`binaryIO/pkedit.py`) -/

/-- The 2D-record integer keys of the `PKEDIT` file
(`pkedit.INT_CONTROL_2D_KEYS`); all are read/written with `rwInt`. -/
def PKEDIT_2D_KEYS : List String :=
  ["NDIM", "NGROUP", "IM", "JM", "KM", "NOUTIT", "XKEFF", "POWIN", "NJBLOK"]

/-- `PkeditData`: file-ID label, the metadata container (which in the
source holds both the label and the 2D integers; the label is split out
here since its key never collides with the integer keys), and the
`peakPowerDensity` array. -/
structure PkeditData where
  label : String
  metadata : MetaMap Int
  peakPowerDensity : PArr
deriving DecidableEq, Repr

/-- The cells of one banded record, in serialization order: `j` runs over
the band, `i` runs fastest (the Fortran writer's column order for the
`[:, jL:jU+1, ki]` slice). -/
def bandCells (im : Nat) (js : List Nat) (k : Nat) : List Cell :=
  (js.map fun j => (List.range im).map fun i => (i, j, k)).flatten

/-- The cell lists of all 3D records in file order: for each `ki` in
`range(kmax)`, for each `bi` in `range(nblck)`, one banded record. -/
def pkeditCellRecords (im jm km nb : Nat) : List (List Cell) :=
  ((List.range km).map fun k =>
    (List.range nb).map fun b => bandCells im (bandJs (b + 1) jm nb) k).flatten

/-- `_rw3DRecord` record sequence in read mode. -/
def readCellRecords : PArr → List (List Cell) → List CRec → Option PArr
  | S, [], _ => some S
  | S, cl :: cls, r :: rs =>
      match readCells S cl r with
      | some S' => readCellRecords S' cls rs
      | none => none
  | _, _ :: _, [] => none

/-- `PkeditStream.readWrite` in write mode: file-ID record, 2D integer
record, then the banded 3D records.  An empty array (`size == 0`) is
first replaced by `np.zeros((IM, JM, KM))`, which raises if a dimension
is negative. -/
def pkeditWrite (p : PkeditData) : Option (List CRec) :=
  match writeRec CWord.int p.metadata PKEDIT_2D_KEYS with
  | none => none
  | some r2 =>
      match MetaMap.get? p.metadata "IM", MetaMap.get? p.metadata "JM",
            MetaMap.get? p.metadata "KM", MetaMap.get? p.metadata "NJBLOK" with
      | some im, some jm, some km, some nb =>
          if size3 p.peakPowerDensity = 0 ∧ (im < 0 ∨ jm < 0 ∨ km < 0) then none
          else
            let A := if size3 p.peakPowerDensity = 0 then
                zeros3 im.toNat jm.toNat km.toNat
              else p.peakPowerDensity
            some ([CWord.str (padTruncate p.label 28)] ::
              r2 ::
              (pkeditCellRecords im.toNat jm.toNat km.toNat nb.toNat).map
                (writeCells A))
      | _, _, _, _ => none

/-- `PkeditStream.readWrite` in read mode: the fresh container's array is
empty, so after the 2D record it is allocated as
`np.zeros((IM, JM, KM))` (raising on a negative dimension) and filled
from the banded records; `range` of a non-positive count is empty. -/
def pkeditRead (f : List CRec) : Option PkeditData :=
  match f with
  | r0 :: r1 :: rest =>
      match readStr28 r0, readRec decInt [] PKEDIT_2D_KEYS r1 with
      | some lbl, some md =>
          match MetaMap.get? md "IM", MetaMap.get? md "JM",
                MetaMap.get? md "KM", MetaMap.get? md "NJBLOK" with
          | some im, some jm, some km, some nb =>
              if im < 0 ∨ jm < 0 ∨ km < 0 then none
              else
                match readCellRecords (zeros3 im.toNat jm.toNat km.toNat)
                    (pkeditCellRecords im.toNat jm.toNat km.toNat nb.toNat)
                    rest with
                | some A => some ⟨lbl, md, A⟩
                | none => none
          | _, _, _, _ => none
      | _, _ => none
  | _ => none

/-- A valid `PKEDIT` container: full-width label, exactly the schema's
metadata fields, positive dimensions and block count, and an array of
exactly the declared shape. -/
def PkeditData.valid (p : PkeditData) : Prop :=
  p.label.length = 28 ∧
  MetaMap.keys p.metadata = newKeys [] PKEDIT_2D_KEYS ∧
  match MetaMap.get? p.metadata "IM", MetaMap.get? p.metadata "JM",
        MetaMap.get? p.metadata "KM", MetaMap.get? p.metadata "NJBLOK" with
  | some im, some jm, some km, some nb =>
      1 ≤ im ∧ 1 ≤ jm ∧ 1 ≤ km ∧ 1 ≤ nb ∧
      wf3 p.peakPowerDensity im.toNat jm.toNat km.toNat
  | _, _, _, _ => False

theorem size3_wf3 {A : PArr} {im jm km : Nat} (h : wf3 A im jm km) :
    size3 A = im * (jm * km) := by
  obtain ⟨hlen, hmem⟩ := h
  rw [size3]
  have hall : ∀ b ∈ A.map (fun p => (p.map List.length).sum), b = jm * km := by
    intro b hb
    obtain ⟨p, hp, rfl⟩ := List.mem_map.mp hb
    obtain ⟨hplen, hpmem⟩ := hmem p hp
    have hrow : ∀ x ∈ p.map List.length, x = km := by
      intro x hx
      obtain ⟨r, hr, rfl⟩ := List.mem_map.mp hx
      exact hpmem r hr
    rw [List.eq_replicate_of_mem hrow, List.sum_replicate, List.length_map,
      hplen, smul_eq_mul]
  rw [List.eq_replicate_of_mem hall, List.sum_replicate, List.length_map,
    hlen, smul_eq_mul]

theorem applyCells_append (A S : PArr) (c₁ c₂ : List Cell) :
    applyCells A S (c₁ ++ c₂) = applyCells A (applyCells A S c₁) c₂ := by
  simp [applyCells, List.foldl_append]

theorem readCellRecords_write (A : PArr) (cls : List (List Cell)) :
    ∀ S extra, readCellRecords S cls (cls.map (writeCells A) ++ extra) =
      some (applyCells A S cls.flatten) := by
  induction cls with
  | nil =>
      intro S extra
      simp [readCellRecords, applyCells]
  | cons cl cls ih =>
      intro S extra
      simp only [List.map_cons, List.cons_append, readCellRecords,
        readCells_writeCells, List.append_eq]
      rw [ih, List.flatten_cons, applyCells_append]

theorem wf3_readCells {im jm km : Nat} (cl : List Cell) :
    ∀ S r S', readCells S cl r = some S' → wf3 S im jm km →
      wf3 S' im jm km := by
  induction cl with
  | nil =>
      intro S r S' h hS
      cases r with
      | nil => cases h; exact hS
      | cons w ws => exact absurd h (by simp [readCells])
  | cons c cs ih =>
      intro S r S' h hS
      cases r with
      | nil => exact absurd h (by simp [readCells])
      | cons w ws =>
          cases w with
          | str s => exact absurd h (by simp [readCells])
          | int n => exact absurd h (by simp [readCells])
          | dbl v => exact ih _ ws S' h (wf3_set3 hS _ _ _ _)

theorem wf3_readCellRecords {im jm km : Nat} (cls : List (List Cell)) :
    ∀ S rs S', readCellRecords S cls rs = some S' → wf3 S im jm km →
      wf3 S' im jm km := by
  induction cls with
  | nil =>
      intro S rs S' h hS
      cases h
      exact hS
  | cons cl cls ih =>
      intro S rs S' h hS
      cases rs with
      | nil => exact absurd h (by simp [readCellRecords])
      | cons r rs' =>
          rcases hrc : readCells S cl r with _ | S₁
          · simp only [readCellRecords, hrc] at h
            exact absurd h (by simp)
          · simp only [readCellRecords, hrc] at h
            exact ih S₁ rs' S' h (wf3_readCells cl S r S₁ hrc hS)

theorem nonneg_readCellRecords (cls : List (List Cell)) :
    ∀ S rs S', readCellRecords S cls rs = some S' →
      (∀ r ∈ rs, ∀ w ∈ r, ∀ x : Rat, w = CWord.dbl x → 0 ≤ x) →
      (∀ i j k, 0 ≤ get3 S i j k) → ∀ i j k, 0 ≤ get3 S' i j k := by
  induction cls with
  | nil =>
      intro S rs S' h _ hS
      cases h
      exact hS
  | cons cl cls ih =>
      intro S rs S' h hrs hS
      cases rs with
      | nil => exact absurd h (by simp [readCellRecords])
      | cons r rs' =>
          rcases hrc : readCells S cl r with _ | S₁
          · simp only [readCellRecords, hrc] at h
            exact absurd h (by simp)
          · simp only [readCellRecords, hrc] at h
            refine ih S₁ rs' S' h
              (fun r' hr' => hrs r' (List.mem_cons_of_mem _ hr')) ?_
            exact get3_readCells_nonneg cl S r S₁ hrc
              (fun w hw => hrs r (List.mem_cons_self _ _) w hw) hS

theorem pkeditCells_inB {im jm km nb : Nat} (hnb : 1 ≤ nb) :
    ∀ c ∈ (pkeditCellRecords im jm km nb).flatten, inB im jm km c := by
  intro c hc
  rw [List.mem_flatten] at hc
  obtain ⟨rec, hrec, hcrec⟩ := hc
  rw [pkeditCellRecords, List.mem_flatten] at hrec
  obtain ⟨l2, hl2, hrecl2⟩ := hrec
  obtain ⟨k, hk, rfl⟩ := List.mem_map.mp hl2
  obtain ⟨b, hb, rfl⟩ := List.mem_map.mp hrecl2
  rw [bandCells, List.mem_flatten] at hcrec
  obtain ⟨row, hrow, hcrow⟩ := hcrec
  obtain ⟨j, hj, rfl⟩ := List.mem_map.mp hrow
  obtain ⟨i, hi, rfl⟩ := List.mem_map.mp hcrow
  have hjlt : j < jm := by
    have hmem : j ∈ (bandList jm nb).flatten := by
      rw [List.mem_flatten]
      refine ⟨bandJs (b + 1) jm nb, ?_, hj⟩
      rw [bandList]
      exact List.mem_map.mpr ⟨b, hb, rfl⟩
    rw [bandList_flatten jm nb hnb] at hmem
    exact List.mem_range.mp hmem
  exact ⟨List.mem_range.mp hi, hjlt, List.mem_range.mp hk⟩

theorem pkeditCells_cover {im jm km nb : Nat} (hnb : 1 ≤ nb) (c : Cell)
    (hc : inB im jm km c) : c ∈ (pkeditCellRecords im jm km nb).flatten := by
  obtain ⟨i, j, k⟩ := c
  obtain ⟨hi, hj, hk⟩ := hc
  have hjmem : j ∈ (bandList jm nb).flatten := by
    rw [bandList_flatten jm nb hnb]
    exact List.mem_range.mpr hj
  rw [List.mem_flatten] at hjmem
  obtain ⟨l, hl, hjl⟩ := hjmem
  rw [bandList] at hl
  obtain ⟨b, hb, rfl⟩ := List.mem_map.mp hl
  rw [List.mem_flatten]
  refine ⟨bandCells im (bandJs (b + 1) jm nb) k, ?_, ?_⟩
  · rw [pkeditCellRecords, List.mem_flatten]
    refine ⟨(List.range nb).map fun b' => bandCells im (bandJs (b' + 1) jm nb) k, ?_, ?_⟩
    · exact List.mem_map.mpr ⟨k, List.mem_range.mpr hk, rfl⟩
    · exact List.mem_map.mpr ⟨b, hb, rfl⟩
  · rw [bandCells, List.mem_flatten]
    refine ⟨(List.range im).map fun i' => (i', j, k), ?_, ?_⟩
    · exact List.mem_map.mpr ⟨j, hjl, rfl⟩
    · exact List.mem_map.mpr ⟨i, List.mem_range.mpr hi, rfl⟩

/-- Round trip of the `DIF3D` schema: writing a valid container and
reading the result restores it field-for-field. -/
theorem dif3dRead_dif3dWrite (d : Dif3dData) (hd : d.valid) :
    ∃ w, dif3dWrite d = some w ∧ dif3dRead w = some d := by
  obtain ⟨hlbl, hic, hkd⟩ := hd
  obtain ⟨r2, hw2, hr2⟩ := record_roundTrip decInt CWord.int (fun a => rfl)
    d.intControls INT_CONTROL_2D_KEYS hic
  obtain ⟨r3, hw3, hr3⟩ := record_roundTrip decDbl CWord.dbl (fun a => rfl)
    d.keffData KEYS_3D_RECORD hkd
  refine ⟨[[CWord.str (padTruncate d.label 28)], write1D, r2, r3], ?_, ?_⟩
  · rw [dif3dWrite, hw2, hw3]
  · simp only [dif3dRead, hr2, hr3, padTruncate_of_length d.label hlbl]
    have h0 : readStr28 [CWord.str d.label] = some d.label := by
      rw [readStr28, if_pos hlbl]
    have h1 : readIntsN 25 write1D = some () := rfl
    rw [h0, h1]

/-- Round trip of the `PKEDIT` schema: writing a valid container and
reading the result restores it field-for-field, the array included. -/
theorem pkeditRead_pkeditWrite (p : PkeditData) (hp : p.valid) :
    ∃ w, pkeditWrite p = some w ∧ pkeditRead w = some p := by
  obtain ⟨hlbl, hkeys, hrest⟩ := hp
  rcases hIM : MetaMap.get? p.metadata "IM" with _ | im
  · rw [hIM] at hrest; simp at hrest
  rcases hJM : MetaMap.get? p.metadata "JM" with _ | jm
  · rw [hIM, hJM] at hrest; simp at hrest
  rcases hKM : MetaMap.get? p.metadata "KM" with _ | km
  · rw [hIM, hJM, hKM] at hrest; simp at hrest
  rcases hNB : MetaMap.get? p.metadata "NJBLOK" with _ | nb
  · rw [hIM, hJM, hKM, hNB] at hrest; simp at hrest
  rw [hIM, hJM, hKM, hNB] at hrest
  simp only at hrest
  obtain ⟨him, hjm, hkm, hnb, hwf⟩ := hrest
  have hnb' : 1 ≤ nb.toNat := by omega
  obtain ⟨r2, hw2, hr2⟩ := record_roundTrip decInt CWord.int (fun a => rfl)
    p.metadata PKEDIT_2D_KEYS hkeys
  have hsz : size3 p.peakPowerDensity ≠ 0 := by
    rw [size3_wf3 hwf]
    have : 1 ≤ im.toNat := by omega
    have : 1 ≤ jm.toNat := by omega
    have : 1 ≤ km.toNat := by omega
    positivity
  refine ⟨[CWord.str (padTruncate p.label 28)] :: r2 ::
      (pkeditCellRecords im.toNat jm.toNat km.toNat nb.toNat).map
        (writeCells p.peakPowerDensity), ?_, ?_⟩
  · simp only [pkeditWrite, hw2, hIM, hJM, hKM, hNB, if_neg hsz]
    rw [if_neg (by rintro ⟨h1, -⟩; exact hsz h1)]
  · have h0 : readStr28 [CWord.str p.label] = some p.label := by
      rw [readStr28, if_pos hlbl]
    have hread : readCellRecords (zeros3 im.toNat jm.toNat km.toNat)
        (pkeditCellRecords im.toNat jm.toNat km.toNat nb.toNat)
        ((pkeditCellRecords im.toNat jm.toNat km.toNat nb.toNat).map
          (writeCells p.peakPowerDensity)) =
        some (applyCells p.peakPowerDensity
          (zeros3 im.toNat jm.toNat km.toNat)
          (pkeditCellRecords im.toNat jm.toNat km.toNat nb.toNat).flatten) := by
      have := readCellRecords_write p.peakPowerDensity
        (pkeditCellRecords im.toNat jm.toNat km.toNat nb.toNat)
        (zeros3 im.toNat jm.toNat km.toNat) []
      simpa using this
    have hfinal : applyCells p.peakPowerDensity
        (zeros3 im.toNat jm.toNat km.toNat)
        (pkeditCellRecords im.toNat jm.toNat km.toNat nb.toNat).flatten =
        p.peakPowerDensity := by
      refine @wf3_ext _ _ im.toNat jm.toNat km.toNat
        (wf3_applyCells _ _ _ (wf3_zeros3 _ _ _)) hwf ?_
      intro i hi j hj k hk
      have hx : inB im.toNat jm.toNat km.toNat (i, j, k) := ⟨hi, hj, hk⟩
      have := get3_applyCells p.peakPowerDensity
        (pkeditCellRecords im.toNat jm.toNat km.toNat nb.toNat).flatten
        (zeros3 im.toNat jm.toNat km.toNat) (wf3_zeros3 _ _ _)
        (fun c hc => pkeditCells_inB hnb' c hc) (i, j, k) hx
      rw [this, if_pos (pkeditCells_cover hnb' (i, j, k) hx)]
    simp only [pkeditRead, h0, hr2, padTruncate_of_length p.label hlbl,
      hIM, hJM, hKM, hNB, if_neg (show ¬(im < 0 ∨ jm < 0 ∨ km < 0) by omega),
      hread, hfinal]

/-- Any successful `PKEDIT` read yields an array of exactly the shape
`(IM, JM, KM)` declared by the metadata decoded earlier from the same
file, and the array is nonnegative whenever every double in the file
is. -/
theorem pkeditRead_shape (f : List CRec) (p : PkeditData)
    (h : pkeditRead f = some p) :
    ∃ im jm km,
      MetaMap.get? p.metadata "IM" = some im ∧
      MetaMap.get? p.metadata "JM" = some jm ∧
      MetaMap.get? p.metadata "KM" = some km ∧
      wf3 p.peakPowerDensity im.toNat jm.toNat km.toNat ∧
      ((∀ r ∈ f, ∀ w ∈ r, ∀ x : Rat, w = CWord.dbl x → 0 ≤ x) →
        ∀ i j k, 0 ≤ get3 p.peakPowerDensity i j k) := by
  cases f with
  | nil => exact absurd h (by simp [pkeditRead])
  | cons r0 f1 =>
  cases f1 with
  | nil => exact absurd h (by simp [pkeditRead])
  | cons r1 rest =>
  rcases h0 : readStr28 r0 with _ | lbl
  · simp only [pkeditRead, h0] at h
    exact absurd h (by simp)
  rcases h1 : readRec decInt [] PKEDIT_2D_KEYS r1 with _ | md
  · simp only [pkeditRead, h0, h1] at h
    exact absurd h (by simp)
  rcases hIM : MetaMap.get? md "IM" with _ | im
  · simp only [pkeditRead, h0, h1, hIM] at h
    exact absurd h (by simp)
  rcases hJM : MetaMap.get? md "JM" with _ | jm
  · simp only [pkeditRead, h0, h1, hIM, hJM] at h
    exact absurd h (by simp)
  rcases hKM : MetaMap.get? md "KM" with _ | km
  · simp only [pkeditRead, h0, h1, hIM, hJM, hKM] at h
    exact absurd h (by simp)
  rcases hNB : MetaMap.get? md "NJBLOK" with _ | nb
  · simp only [pkeditRead, h0, h1, hIM, hJM, hKM, hNB] at h
    exact absurd h (by simp)
  by_cases hneg : im < 0 ∨ jm < 0 ∨ km < 0
  · simp only [pkeditRead, h0, h1, hIM, hJM, hKM, hNB, if_pos hneg] at h
    exact absurd h (by simp)
  rcases hrd : readCellRecords (zeros3 im.toNat jm.toNat km.toNat)
      (pkeditCellRecords im.toNat jm.toNat km.toNat nb.toNat) rest with _ | A
  · simp only [pkeditRead, h0, h1, hIM, hJM, hKM, hNB, if_neg hneg, hrd] at h
    exact absurd h (by simp)
  simp only [pkeditRead, h0, h1, hIM, hJM, hKM, hNB, if_neg hneg, hrd,
    Option.some.injEq] at h
  subst h
  refine ⟨im, jm, km, hIM, hJM, hKM, ?_, ?_⟩
  · exact wf3_readCellRecords _ _ rest _ hrd (wf3_zeros3 _ _ _)
  · intro hr
    refine nonneg_readCellRecords _ _ rest _ hrd ?_ ?_
    · intro r hrr w hw x hx
      exact hr r (List.mem_cons_of_mem _ (List.mem_cons_of_mem _ hrr)) w hw x hx
    · intro i j k
      rw [get3_zeros3]

/-- A sample valid `DIF3D` container (all controls zero, all float fields
one). -/
def sampleDif3d : Dif3dData :=
  ⟨String.mk (List.replicate 28 ' '),
   (newKeys [] INT_CONTROL_2D_KEYS).map fun k => (k, (0 : Int)),
   (newKeys [] KEYS_3D_RECORD).map fun k => (k, (1 : Rat))⟩

/-- A sample valid `PKEDIT` container with `IM = JM = KM = 2` and
`NJBLOK = 3`. -/
def exPkedit : PkeditData :=
  ⟨String.mk (List.replicate 28 ' '),
   [("NDIM", 3), ("NGROUP", 1), ("IM", 2), ("JM", 2), ("KM", 2),
    ("NOUTIT", 10), ("XKEFF", 1), ("POWIN", 1), ("NJBLOK", 3)],
   [[[1, 2], [3, 4]], [[5, 6], [7, 8]]]⟩

/-- The binary image of `exPkedit`, used as a read fixture. -/
def exPkeditFile : List CRec := (pkeditWrite exPkedit).getD []

/-! ## Claim theorems: binary schemas -/

/-- C1: for every valid data container of either concrete schema (the
DIF3D scalar/control file and the PKEDIT peak-value file), writing it
with `writeBinary` and then reading the written file with `readBinary`
yields a container equal to the original field-for-field, in scalar
metadata and numeric arrays alike. -/
theorem C1_roundTrip_identity :
    (∀ d : Dif3dData, d.valid →
      ∃ w, dif3dWrite d = some w ∧ dif3dRead w = some d) ∧
    (∀ p : PkeditData, p.valid →
      ∃ w, pkeditWrite p = some w ∧ pkeditRead w = some p) :=
  ⟨dif3dRead_dif3dWrite, pkeditRead_pkeditWrite⟩

theorem C1_roundTrip_identity_witness :
    (∃ w, dif3dWrite sampleDif3d = some w ∧
      dif3dRead w = some sampleDif3d) ∧
    (∃ w, pkeditWrite exPkedit = some w ∧ pkeditRead w = some exPkedit) :=
  ⟨C1_roundTrip_identity.1 sampleDif3d ⟨by decide, by decide, by decide⟩,
   C1_roundTrip_identity.2 exPkedit
     ⟨by decide, by decide, by decide, by decide, by decide, by decide,
      by decide, by decide⟩⟩

/-- C2: for every axisExtent ≥ 1 and blockCount ≥ 1, the band
partitioning produces exactly blockCount bands whose concatenation in
band order is exactly the full axis (hence contiguous, pairwise disjoint,
and covering), with sizes as even as possible and any remainder on the
earlier bands (sizes are nonincreasing and differ by at most one;
axisExtent 10 with blockCount 3 gives sizes 4, 3, 3); blockCount 1 yields
the full axis as the single band. -/
theorem C2_band_coverage (axisExtent blockCount : Nat)
    (_he : 1 ≤ axisExtent) (hc : 1 ≤ blockCount) :
    (bandList axisExtent blockCount).length = blockCount ∧
    (bandList axisExtent blockCount).flatten = List.range axisExtent ∧
    (∀ m₁ m₂, m₁ ≤ m₂ →
      bandSize m₂ axisExtent blockCount ≤ bandSize m₁ axisExtent blockCount ∧
      bandSize m₁ axisExtent blockCount ≤
        bandSize m₂ axisExtent blockCount + 1) ∧
    (bandList 10 3).map List.length = [4, 3, 3] ∧
    bandList axisExtent 1 = [List.range axisExtent] := by
  refine ⟨by simp [bandList], bandList_flatten _ _ hc, ?_, by decide,
    bandList_single _⟩
  intro m₁ m₂ h
  exact bandSize_monotone m₁ m₂ _ _ h

theorem C2_band_coverage_witness :
    (bandList 10 3).length = 3 ∧
    (bandList 10 3).flatten = List.range 10 ∧
    (∀ m₁ m₂, m₁ ≤ m₂ →
      bandSize m₂ 10 3 ≤ bandSize m₁ 10 3 ∧
      bandSize m₁ 10 3 ≤ bandSize m₂ 10 3 + 1) ∧
    (bandList 10 3).map List.length = [4, 3, 3] ∧
    bandList 10 1 = [List.range 10] :=
  C2_band_coverage 10 3 (by decide) (by decide)

/-- C3: the convergence classification decoded from the DIF3D control
integer `IRETRN` maps 0 to `NO_ITERATIONS`, 1 to `CONVERGED`, 2 to
`OUTERS_LIMIT_REACHED`, 3 to `TIME_LIMIT_REACHED`, and any other integer
to a format error (`ValueError` from the `Enum` lookup, modelled as
`none`); the container property decodes exactly its `IRETRN` field. -/
theorem C3_convergence_classification :
    Convergence.ofInt? 0 = some Convergence.NO_ITERATIONS ∧
    Convergence.ofInt? 1 = some Convergence.CONVERGED ∧
    Convergence.ofInt? 2 = some Convergence.OUTERS_LIMIT_REACHED ∧
    Convergence.ofInt? 3 = some Convergence.TIME_LIMIT_REACHED ∧
    (∀ n : Int, n ≠ 0 → n ≠ 1 → n ≠ 2 → n ≠ 3 →
      Convergence.ofInt? n = none) ∧
    (∀ (d : Dif3dData) (n : Int),
      MetaMap.get? d.intControls "IRETRN" = some n →
      d.convergence = Convergence.ofInt? n) := by
  refine ⟨rfl, rfl, rfl, rfl, ?_, ?_⟩
  · intro n h0 h1 h2 h3
    simp [Convergence.ofInt?, h0, h1, h2, h3]
  · intro d n h
    rw [Dif3dData.convergence, h]
    rfl

theorem C3_convergence_classification_witness :
    Convergence.ofInt? 7 = none ∧
    Dif3dData.convergence ⟨"", [("IRETRN", 1)], []⟩ = Convergence.ofInt? 1 :=
  ⟨C3_convergence_classification.2.2.2.2.1 7 (by decide) (by decide)
     (by decide) (by decide),
   C3_convergence_classification.2.2.2.2.2 ⟨"", [("IRETRN", 1)], []⟩ 1
     (by decide)⟩

/-- C6: a successful PKEDIT read produces a peak-power-density array of
shape exactly `(IM, JM, KM)` as declared by the 2D metadata record of the
same file (the array is dimensioned from those decoded fields), assembled
from the banded records; on the fixture with `IM = JM = KM = 2` and
`NJBLOK = 3`, all decoded values are ≥ 0.0. -/
theorem C6_pkedit_read_shape :
    (∀ f p, pkeditRead f = some p →
      ∃ im jm km,
        MetaMap.get? p.metadata "IM" = some im ∧
        MetaMap.get? p.metadata "JM" = some jm ∧
        MetaMap.get? p.metadata "KM" = some km ∧
        wf3 p.peakPowerDensity im.toNat jm.toNat km.toNat ∧
        ((∀ r ∈ f, ∀ w ∈ r, ∀ x : Rat, w = CWord.dbl x → 0 ≤ x) →
          ∀ i j k, 0 ≤ get3 p.peakPowerDensity i j k)) ∧
    (pkeditRead exPkeditFile = some exPkedit ∧
     MetaMap.get? exPkedit.metadata "IM" = some 2 ∧
     MetaMap.get? exPkedit.metadata "JM" = some 2 ∧
     MetaMap.get? exPkedit.metadata "KM" = some 2 ∧
     MetaMap.get? exPkedit.metadata "NJBLOK" = some 3 ∧
     wf3 exPkedit.peakPowerDensity 2 2 2 ∧
     (∀ i < 2, ∀ j < 2, ∀ k < 2,
       (0 : Rat) ≤ get3 exPkedit.peakPowerDensity i j k)) := by
  refine ⟨pkeditRead_shape, by decide, by decide, by decide, by decide,
    by decide, by decide, by decide⟩

theorem C6_pkedit_read_shape_witness :
    ∃ im jm km,
      MetaMap.get? exPkedit.metadata "IM" = some im ∧
      MetaMap.get? exPkedit.metadata "JM" = some jm ∧
      MetaMap.get? exPkedit.metadata "KM" = some km ∧
      wf3 exPkedit.peakPowerDensity im.toNat jm.toNat km.toNat ∧
      ((∀ r ∈ exPkeditFile, ∀ w ∈ r, ∀ x : Rat, w = CWord.dbl x → 0 ≤ x) →
        ∀ i j k, 0 ≤ get3 exPkedit.peakPowerDensity i j k) :=
  C6_pkedit_read_shape.1 exPkeditFile exPkedit (by decide)

/-- A `DIF3D` file whose (discarded) 1D record holds a nonzero integer. -/
def exDif3dFile : List CRec :=
  [[CWord.str (String.mk (List.replicate 28 ' '))],
   CWord.int 7 :: List.replicate 24 (CWord.int 0),
   (List.range 47).map fun i => CWord.int (i : Int),
   (List.range 30).map fun i => CWord.dbl (i : Rat)]

/-- C9: writing the DIF3D file always emits the 1D record as 25 zero
integers regardless of the container; reading consumes and discards the
1D record's contents (the decoded container does not depend on them);
consequently a file with a nonzero 1D record is read successfully but is
not reproduced byte-identically by a read-then-write cycle. -/
theorem C9_1D_record_zeroed :
    (∀ d w, dif3dWrite d = some w →
      ∃ r0 r2 r3, w = [r0, List.replicate 25 (CWord.int 0), r2, r3]) ∧
    (∀ r0 r1 r1' r2 r3 rest,
      readIntsN 25 r1 = some () → readIntsN 25 r1' = some () →
      dif3dRead (r0 :: r1 :: r2 :: r3 :: rest) =
        dif3dRead (r0 :: r1' :: r2 :: r3 :: rest)) ∧
    ((dif3dRead exDif3dFile).isSome ∧
     ((dif3dRead exDif3dFile).bind dif3dWrite).isSome ∧
     (dif3dRead exDif3dFile).bind dif3dWrite ≠ some exDif3dFile) := by
  refine ⟨?_, ?_, by decide, by decide, by decide⟩
  · intro d w hw
    rcases h2 : writeRec CWord.int d.intControls INT_CONTROL_2D_KEYS with _ | r2
    · simp only [dif3dWrite, h2] at hw
      exact absurd hw (by simp)
    rcases h3 : writeRec CWord.dbl d.keffData KEYS_3D_RECORD with _ | r3
    · simp only [dif3dWrite, h2, h3] at hw
      exact absurd hw (by simp)
    simp only [dif3dWrite, h2, h3, Option.some.injEq] at hw
    exact ⟨[CWord.str (padTruncate d.label 28)], r2, r3, hw.symm⟩
  · intro r0 r1 r1' r2 r3 rest h1 h1'
    simp only [dif3dRead, h1, h1']

theorem C9_1D_record_zeroed_witness :
    (∃ r0 r2 r3, (dif3dWrite sampleDif3d).getD [] =
      [r0, List.replicate 25 (CWord.int 0), r2, r3]) ∧
    dif3dRead ([CWord.str (String.mk (List.replicate 28 ' '))] ::
        (CWord.int 7 :: List.replicate 24 (CWord.int 0)) ::
        ((List.range 47).map fun i => CWord.int (i : Int)) ::
        ((List.range 30).map fun i => CWord.dbl (i : Rat)) :: []) =
      dif3dRead ([CWord.str (String.mk (List.replicate 28 ' '))] ::
        write1D ::
        ((List.range 47).map fun i => CWord.int (i : Int)) ::
        ((List.range 30).map fun i => CWord.dbl (i : Rat)) :: []) :=
  ⟨C9_1D_record_zeroed.1 sampleDif3d ((dif3dWrite sampleDif3d).getD [])
     (by decide),
   C9_1D_record_zeroed.2.1 [CWord.str (String.mk (List.replicate 28 ' '))]
     (CWord.int 7 :: List.replicate 24 (CWord.int 0)) write1D
     ((List.range 47).map fun i => CWord.int (i : Int))
     ((List.range 30).map fun i => CWord.dbl (i : Rat)) []
     (by decide) (by decide)⟩

/-! ## The stdout fallback extractor (`Dif3dStdoutReader.readRegionTotals`)

A log line is its character list without the trailing newline (every line
of the section carries one in the file, so exact-line comparison against
the newline-terminated marker literal is comparison of the visible
text). -/

abbrev LogLine := List Char

/-- Python `str.split()`, with explicit fuel (always called with fuel at
least the list length, which suffices because each step consumes at least
one character): split on whitespace runs, dropping empty pieces. -/
def pySplitAux : Nat → List Char → List (List Char)
  | 0, _ => []
  | _, [] => []
  | n + 1, c :: cs =>
      if c.isWhitespace then pySplitAux n cs
      else (c :: cs.takeWhile (fun x => !x.isWhitespace)) ::
        pySplitAux n (cs.dropWhile (fun x => !x.isWhitespace))

/-- Python `str.split()`. -/
def pySplit (l : List Char) : List (List Char) := pySplitAux l.length l

/-- Python `str.strip()`. -/
def stripWS (l : List Char) : List Char :=
  ((l.dropWhile Char.isWhitespace).reverse.dropWhile Char.isWhitespace).reverse

/-- Python `str.startswith(p)`. -/
def startsWithL : List Char → List Char → Bool
  | _, [] => true
  | [], _ :: _ => false
  | c :: cs, p :: ps => c == p && startsWithL cs ps

/-- The fixed 13-character windows of `_getRegionLabels`
(`range(0, len(data), 13)`). -/
def windowsAux : Nat → List Char → List (List Char)
  | 0, _ => []
  | _, [] => []
  | n + 1, c :: cs => (c :: cs.take 12) :: windowsAux n (cs.drop 12)

def windows13 (l : List Char) : List (List Char) := windowsAux l.length l

def digitsToNat (ds : List Char) : Nat :=
  ds.foldl (fun a c => 10 * a + (c.toNat - '0'.toNat)) 0

/-- Apply a decimal exponent suffix (digits of `r` after `e`/`E` and an
optional sign). -/
def expApply (base : Rat) (ds : List Char) (neg : Bool) : Option Rat :=
  if ds.isEmpty || !ds.all Char.isDigit then none
  else
    some (if neg then base / (10 : Rat) ^ digitsToNat ds
      else base * (10 : Rat) ^ digitsToNat ds)

def parseExp (base : Rat) (r : List Char) : Option Rat :=
  match r with
  | [] => some base
  | 'e' :: '+' :: ds => expApply base ds false
  | 'e' :: '-' :: ds => expApply base ds true
  | 'e' :: ds => expApply base ds false
  | 'E' :: '+' :: ds => expApply base ds false
  | 'E' :: '-' :: ds => expApply base ds true
  | 'E' :: ds => expApply base ds false
  | _ => none

def parseMant (t : List Char) : Option (Rat × List Char) :=
  let ip := t.takeWhile Char.isDigit
  let r1 := t.dropWhile Char.isDigit
  match r1 with
  | '.' :: r2 =>
      let fp := r2.takeWhile Char.isDigit
      let r3 := r2.dropWhile Char.isDigit
      if ip.isEmpty && fp.isEmpty then none
      else some ((digitsToNat ip : Rat) +
        (digitsToNat fp : Rat) / (10 : Rat) ^ fp.length, r3)
  | _ => if ip.isEmpty then none else some ((digitsToNat ip : Rat), r1)

/-- Python `float(val)` on the finite decimal / scientific literals that
occur in the log (exact-decimal idealization of the IEEE-754 decode;
a malformed literal raises `ValueError`, modelled `none`). -/
def parseFloat? (l : List Char) : Option Rat :=
  match stripWS l with
  | '+' :: t2 => (parseMant t2).bind fun mr => parseExp mr.1 mr.2
  | '-' :: t2 => (parseMant t2).bind fun mr => (parseExp mr.1 mr.2).map Neg.neg
  | t => (parseMant t).bind fun mr => parseExp mr.1 mr.2

/-- The exact section start marker line (`"0"`, 55 blanks,
`"REGION TOTALS"`). -/
def startMarkL : LogLine :=
  '0' :: (List.replicate 55 ' ' ++ "REGION TOTALS".toList)

/-- The section end marker (`"0"`, 40 blanks,
`"REACTION INTEGRALS IN DIRECTION OF CALCULATION"`), matched as a line
prefix. -/
def endMarkL : LogLine :=
  '0' :: (List.replicate 40 ' ' ++
    "REACTION INTEGRALS IN DIRECTION OF CALCULATION".toList)

def regionHdrL : LogLine := "     REGION".toList

def peakFluxTagL : LogLine := " PEAK FLUX".toList

/-- `_getRegionLabels`: drop the 15-character prefix, strip, then take
the second whitespace-delimited field of each 13-character window (an
`IndexError` — modelled `none` — if a window has fewer than two
fields). -/
def getRegionLabels (l : LogLine) : Option (List String) :=
  ((windows13 (stripWS (l.drop 15))).mapM fun w => (pySplit w)[1]?).map
    fun ws => ws.map String.mk

/-- The `peakFluxesByRegion[reg] = float(val)` assignments of one
`PEAK FLUX` line, in order. -/
def assignPeaks (acc : MetaMap Rat) :
    List (String × List Char) → Option (MetaMap Rat)
  | [] => some acc
  | (reg, val) :: rest =>
      match parseFloat? val with
      | some x => assignPeaks (MetaMap.set acc reg x) rest
      | none => none

/-- The second loop of `readRegionTotals`: header lines refresh the
active label batch, `PEAK FLUX` lines zip their values with it (a
`PEAK FLUX` line before any header is a `TypeError`, modelled `none`),
the end marker stops the scan, anything else is skipped. -/
def processLines : List LogLine → Option (List String) → MetaMap Rat →
    Option (MetaMap Rat)
  | [], _, acc => some acc
  | l :: rest, active, acc =>
      if startsWithL l regionHdrL then
        match getRegionLabels l with
        | some labs => processLines rest (some labs) acc
        | none => none
      else if startsWithL l peakFluxTagL then
        match active with
        | none => none
        | some labs =>
            match assignPeaks acc (labs.zip ((pySplit l).drop 2)) with
            | some acc' => processLines rest active acc'
            | none => none
      else if startsWithL l endMarkL then some acc
      else processLines rest active acc

/-- The first loop of `readRegionTotals`: scan for the exact marker line
and return the remaining lines; exhausting the file finds nothing. -/
def findRest : List LogLine → Option (List LogLine)
  | [] => none
  | l :: ls => if l = startMarkL then some ls else findRest ls

/-- `Dif3dStdoutReader.readRegionTotals`: when the marker is absent both
loops run off the end of the file and the empty mapping is returned. -/
def readRegionTotals (lines : List LogLine) : Option (MetaMap Rat) :=
  match findRest lines with
  | none => some []
  | some rest => processLines rest none []

/-- A `REGION TOTALS` section in which label `LAB1` appears under two
header blocks (values 15.0 then 45.0) and `LAB2` only under the first
(value 25.0). -/
def exStdout : List LogLine :=
  [startMarkL,
   ("     REGION    " ++ "1 LAB1       2 LAB2").toList,
   " PEAK FLUX     15  25".toList,
   ("     REGION    " ++ "3 LAB1").toList,
   " PEAK FLUX     45".toList,
   endMarkL]


theorem startsWithL_cons {l p : List Char} {c : Char}
    (h : startsWithL l (c :: p) = true) :
    ∃ cs, l = c :: cs ∧ startsWithL cs p = true := by
  cases l with
  | nil => simp [startsWithL] at h
  | cons a as =>
      simp only [startsWithL, Bool.and_eq_true, beq_iff_eq] at h
      exact ⟨as, by rw [h.1], h.2⟩

theorem findRest_eq_none (lines : List LogLine)
    (h : ∀ l ∈ lines, l ≠ startMarkL) : findRest lines = none := by
  induction lines with
  | nil => rfl
  | cons l ls ih =>
      rw [findRest, if_neg (h l (List.mem_cons_self _ _))]
      exact ih fun l' hl' => h l' (List.mem_cons_of_mem _ hl')

theorem findRest_append (pre lines : List LogLine)
    (h : ∀ l ∈ pre, l ≠ startMarkL) :
    findRest (pre ++ startMarkL :: lines) = some lines := by
  induction pre with
  | nil => simp [findRest]
  | cons l ls ih =>
      rw [List.cons_append, findRest, if_neg (h l (List.mem_cons_self _ _))]
      exact ih fun l' hl' => h l' (List.mem_cons_of_mem _ hl')

/-- C5 counterexample: in `exStdout` the label `LAB1` appears under two
header blocks, with values 15 and then 45.  `readRegionTotals` returns a
mapping holding only the later value 45 for `LAB1` — the later entry
overwrote the earlier one; nothing was accumulated. -/
theorem C5_counterexample :
    readRegionTotals exStdout =
      some [("LAB1", (45 : Rat)), ("LAB2", (25 : Rat))] ∧
    (readRegionTotals exStdout).map (fun m => MetaMap.get? m "LAB1") =
      some (some (45 : Rat)) :=
  ⟨by decide, by decide⟩

/-- C5 (amended): `readRegionTotals` returns one mapping that persists
across header blocks — labels seen under earlier header blocks keep their
entries when later blocks arrive — but a label that reappears under a
later header block has its value overwritten by the later entry rather
than accumulated: the dictionary assignment used for every `PEAK FLUX`
value overwrites the addressed label and preserves all others. -/
theorem C5_region_totals_overwrite :
    (∀ (acc : MetaMap Rat) (k : String) (x : Rat),
      MetaMap.get? (MetaMap.set acc k x) k = some x) ∧
    (∀ (acc : MetaMap Rat) (k k' : String) (x : Rat), k' ≠ k →
      MetaMap.get? (MetaMap.set acc k x) k' = MetaMap.get? acc k') ∧
    (readRegionTotals exStdout).map (fun m =>
      (MetaMap.get? m "LAB1", MetaMap.get? m "LAB2")) =
      some (some (45 : Rat), some (25 : Rat)) :=
  ⟨MetaMap.get_set_self, MetaMap.get_set_other, by decide⟩

theorem C5_region_totals_overwrite_witness :
    MetaMap.get? (MetaMap.set [] "LAB1" (15 : Rat)) "LAB1" = some 15 ∧
    MetaMap.get? (MetaMap.set [("LAB1", (15 : Rat))] "LAB2" 25) "LAB1" =
      MetaMap.get? [("LAB1", (15 : Rat))] "LAB1" :=
  ⟨C5_region_totals_overwrite.1 [] "LAB1" 15,
   C5_region_totals_overwrite.2.1 [("LAB1", (15 : Rat))] "LAB2" "LAB1" 25
     (by decide)⟩

/-- C10: when the literal `REGION TOTALS` start-marker line is absent
from the log, `readRegionTotals` returns the empty mapping rather than
raising; values are collected only between the markers — lines before the
start marker only feed the marker scan, and a line carrying the
end-marker prefix stops collection immediately, whatever follows it. -/
theorem C10_marker_bounds :
    (∀ lines, (∀ l ∈ lines, l ≠ startMarkL) →
      readRegionTotals lines = some []) ∧
    (∀ pre lines, (∀ l ∈ pre, l ≠ startMarkL) →
      readRegionTotals (pre ++ startMarkL :: lines) =
        processLines lines none []) ∧
    (∀ l tail active acc, startsWithL l endMarkL = true →
      processLines (l :: tail) active acc = some acc) := by
  refine ⟨?_, ?_, ?_⟩
  · intro lines h
    rw [readRegionTotals, findRest_eq_none lines h]
  · intro pre lines h
    rw [readRegionTotals, findRest_append pre lines h]
  · intro l tail active acc h
    simp only [endMarkL] at h
    obtain ⟨cs, rfl, -⟩ := startsWithL_cons h
    have h1 : startsWithL ('0' :: cs) regionHdrL = false := rfl
    have h2 : startsWithL ('0' :: cs) peakFluxTagL = false := rfl
    have h3 : startsWithL ('0' :: cs) endMarkL = true := by
      simp only [endMarkL]
      exact h
    simp only [processLines, h1, h2, h3]
    rfl

theorem C10_marker_bounds_witness :
    readRegionTotals [" PEAK FLUX     15".toList] = some [] ∧
    readRegionTotals ([" junk".toList] ++ startMarkL :: [endMarkL]) =
      processLines [endMarkL] none [] ∧
    processLines (endMarkL :: [" PEAK FLUX     99".toList]) none [] =
      some [] :=
  ⟨C10_marker_bounds.1 [" PEAK FLUX     15".toList] (by decide),
   C10_marker_bounds.2.1 [" junk".toList] [endMarkL] (by decide),
   C10_marker_bounds.2.2 endMarkL [" PEAK FLUX     99".toList] none []
     (by decide)⟩

/-! ## The region-mesh index resolver (`Dif3dReader._getMeshesInRegion`) -/

/-- `np.where(self._labels.regionLabels == regionName)[0]`: all indices
whose label equals the name, in index order. -/
def matchIndices (labels : List String) (name : String) : List Nat :=
  (List.range labels.length).filter fun i => labels.getD i "" = name

/-- `_getMeshesInRegion`: take the first matching index (`[0][0]`; an
`IndexError`, modelled `none`, when the match set is empty), convert to
the 1-based region number, and collect the mesh cells whose region
assignment (`coarseMeshRegions`, given as cell/region pairs) equals it;
the 0-based region index is returned alongside. -/
def getMeshesInRegion (labels : List String) (assign : List (Cell × Nat))
    (name : String) : Option (List Cell × Nat) :=
  match (matchIndices labels name).head? with
  | none => none
  | some regInd =>
      some ((assign.filter fun c => c.2 = regInd + 1).map Prod.fst, regInd)

/-! ## Result aggregation (`Dif3dReader._applyFluxData`, `_readPower`,
`_readPeakFluxes`) -/

/-- `np.mean`: sum over length (`Rat` division; the empty case, `NaN` in
numpy, is never hit by the claims). -/
def listMean (l : List Rat) : Rat := l.sum / l.length

/-- `np.ndarray.max`, which raises on an empty array (modelled `none`). -/
def listMax : List Rat → Option Rat
  | [] => none
  | x :: xs => some (xs.foldl max x)

/-- The `fluxes` matrix of `_applyFluxData`: shape `(NGROUP, nMeshes)`,
column `meshI` filled from `groupFluxes[i, j, k, :]`; row `g` therefore
lists group `g` of each resolved mesh cell in mesh order.  `grpFlux` is
the decoded 4-D array accessor. -/
def fluxMatrix (grpFlux : Cell → Nat → Rat) (ng : Nat)
    (meshes : List Cell) : List (List Rat) :=
  (List.range ng).map fun g => meshes.map fun c => grpFlux c g

/-- `_applyFluxData` aggregation: `fluxes.mean(1)` (per-group mean across
the mesh axis) assigned to the multigroup parameter, then its `.sum()`
assigned to the scalar flux parameter. -/
def applyFluxData (grpFlux : Cell → Nat → Rat) (ng : Nat)
    (meshes : List Cell) : List Rat × Rat :=
  let mg := (fluxMatrix grpFlux ng meshes).map listMean
  (mg, mg.sum)

/-- The run options consulted by the skip rules. -/
structure FluxOpts where
  real : Bool
  adjoint : Bool
deriving DecidableEq, Repr

/-- The power-related parameters of one domain object (block), plus its
DIF3D-style locator label. -/
structure BlockState where
  label : String
  pdens : Rat
  ppdens : Rat
  power : Rat
  fluxPeak : Rat
deriving DecidableEq, Repr

/-- The decoded inputs `_readPower` consumes: the PWDINT and PKEDIT
arrays, the label table, the region-assignment array and the per-region
volumes. -/
structure PowerEnv where
  pwdintDensity : Cell → Rat
  pkeditDensity : Cell → Rat
  regionLabels : List String
  assign : List (Cell × Nat)
  regionVolumes : Nat → Rat

def skipPowerMsg : String := "Skipping power update due to purely adjoint case"

def skipPeakMsg : String :=
  "Skipping peak flux update due to purely adjoint case"

/-- `Dif3dReader._readPower`: in a purely adjoint case, log the skip and
leave every block untouched; otherwise log the reads and update each
block's power density (mesh mean), peak power density (mesh max) and
power (density times region volume).  Failures (unresolvable label, empty
mesh set for the max) abort, modelled `none`. -/
def readPower (opts : FluxOpts) (env : PowerEnv)
    (blocks : List BlockState) : List String × Option (List BlockState) :=
  if opts.adjoint && !opts.real then ([skipPowerMsg], some blocks)
  else
    (["Reading power distributions from PWDINT",
      "Reading peak power distributions from PKEDIT"],
     blocks.mapM fun b =>
       match getMeshesInRegion env.regionLabels env.assign b.label with
       | none => none
       | some (meshes, regInd) =>
           match listMax (meshes.map env.pkeditDensity) with
           | none => none
           | some ppd =>
               let pd := listMean (meshes.map env.pwdintDensity)
               some { b with pdens := pd, ppdens := ppd,
                             power := pd * env.regionVolumes regInd })

/-- `Dif3dReader._readPeakFluxes`: in a purely adjoint case, log the skip
and leave every block untouched; otherwise read the region totals from
stdout and set each block's peak flux (a missing label is a `KeyError`,
modelled `none`). -/
def readPeakFluxes (opts : FluxOpts) (stdout : List LogLine)
    (blocks : List BlockState) : List String × Option (List BlockState) :=
  if opts.adjoint && !opts.real then ([skipPeakMsg], some blocks)
  else
    ([],
     match readRegionTotals stdout with
     | none => none
     | some pf => blocks.mapM fun b =>
         match MetaMap.get? pf b.label with
         | none => none
         | some x => some { b with fluxPeak := x })

/-- C4 counterexample: with a duplicated label the match set has two
entries, yet the resolver succeeds and silently resolves to the first
matching entry — no data-integrity error is raised for multiple
matches. -/
theorem C4_counterexample :
    matchIndices ["A", "A"] "A" = [0, 1] ∧
    getMeshesInRegion ["A", "A"] [(((0, 0, 0) : Cell), 1)] "A" =
      some ([(0, 0, 0)], 0) := by
  exact ⟨by decide, by decide⟩

/-- C4 (amended): the resolver requires the label to be present — an
absent label fails with a distinguishable error (`IndexError` on the
empty match set, modelled `none`), never a silent default — but it does
not enforce uniqueness: whenever the match set is nonempty, even with
multiple matches, it silently uses the first matching index. -/
theorem C4_label_lookup :
    (∀ labels assign name, matchIndices labels name = [] →
      getMeshesInRegion labels assign name = none) ∧
    (∀ labels assign name i is, matchIndices labels name = i :: is →
      getMeshesInRegion labels assign name =
        some ((assign.filter fun c => c.2 = i + 1).map Prod.fst, i)) := by
  constructor
  · intro labels assign name h
    simp only [getMeshesInRegion, h, List.head?]
  · intro labels assign name i is h
    simp only [getMeshesInRegion, h, List.head?]

theorem C4_label_lookup_witness :
    getMeshesInRegion [] [] "A" = none ∧
    getMeshesInRegion ["A", "A"] [] "A" = some ([], 0) :=
  ⟨C4_label_lookup.1 [] [] "A" (by decide),
   C4_label_lookup.2 ["A", "A"] [] "A" 0 [1] (by decide)⟩

theorem getD_map_range {α : Type} (f : Nat → α) (ng g : Nat) (d : α)
    (h : g < ng) : ((List.range ng).map f).getD g d = f g := by
  rw [List.getD_eq_getElem _ _ (by simpa using h)]
  simp

/-- C7: for every domain object, the per-energy-group flux result is the
per-group mean of the decoded group fluxes taken independently per group
across the object's resolved mesh cells, and the scalar flux result is
the sum over groups of those per-group means — the mean across cells is
taken before any cross-group summation. -/
theorem C7_flux_aggregation (grpFlux : Cell → Nat → Rat) (ng : Nat)
    (meshes : List Cell) :
    (∀ g, g < ng →
      (applyFluxData grpFlux ng meshes).1.getD g 0 =
        (meshes.map fun c => grpFlux c g).sum / meshes.length) ∧
    (applyFluxData grpFlux ng meshes).2 =
      ((List.range ng).map fun g =>
        (meshes.map fun c => grpFlux c g).sum / meshes.length).sum := by
  constructor
  · intro g hg
    simp only [applyFluxData, fluxMatrix, List.map_map]
    rw [getD_map_range _ _ _ _ hg]
    simp [listMean]
  · simp only [applyFluxData, fluxMatrix, List.map_map]
    refine congrArg List.sum (List.map_congr_left fun g _ => ?_)
    simp [listMean]

theorem C7_flux_aggregation_witness :
    (applyFluxData (fun c g => ((c.1 + g : Nat) : Rat)) 2
        [((0, 0, 0) : Cell), (1, 0, 0)]).1.getD 1 0 =
      (([((0, 0, 0) : Cell), (1, 0, 0)]).map fun c =>
        ((c.1 + 1 : Nat) : Rat)).sum /
        ([((0, 0, 0) : Cell), (1, 0, 0)]).length :=
  (C7_flux_aggregation (fun c g => ((c.1 + g : Nat) : Rat)) 2
    [((0, 0, 0) : Cell), (1, 0, 0)]).1 1 (by decide)

/-- C8: when the run options request an adjoint-only solution
(real = false, adjoint = true), power aggregation and peak-flux
aggregation are both skipped entirely with the skip logged, and the block
list is returned unchanged — no block's power-related fields (power
density, peak power density, power, peak flux) are modified. -/
theorem C8_adjoint_skip (opts : FluxOpts) (env : PowerEnv)
    (stdout : List LogLine) (blocks : List BlockState)
    (hadj : opts.adjoint = true) (hreal : opts.real = false) :
    readPower opts env blocks = ([skipPowerMsg], some blocks) ∧
    readPeakFluxes opts stdout blocks = ([skipPeakMsg], some blocks) := by
  constructor
  · rw [readPower, hadj, hreal]
    rfl
  · rw [readPeakFluxes, hadj, hreal]
    rfl

def exOpts : FluxOpts := ⟨false, true⟩

def exEnv : PowerEnv := ⟨fun _ => 0, fun _ => 0, [], [], fun _ => 0⟩

def exBlock : BlockState := ⟨"B1", 1, 2, 3, 4⟩

theorem C8_adjoint_skip_witness :
    readPower exOpts exEnv [exBlock] = ([skipPowerMsg], some [exBlock]) ∧
    readPeakFluxes exOpts [] [exBlock] = ([skipPeakMsg], some [exBlock]) :=
  C8_adjoint_skip exOpts exEnv [] [exBlock] (by decide) (by decide)
